import Mathlib

/-!
Verification of the OpenSK persistent-store fuzzing infrastructure.

This file embeds, in Lean 4, the pure parts of the `persistent_store` fuzz
harness (`fuzz/src/lib.rs`, `fuzz/src/histogram.rs`, `fuzz/src/store.rs`) and
the store driver (`src/driver.rs`) of OpenSK, and proves properties about them.

Conventions of the embedding:
* Rust `usize` values are embedded as `Nat`; where Rust would overflow or
  panic the embedded function is guarded (an `assert!` that can fail becomes
  an `Option`/guard, so a Rust panic corresponds to `none`).
* Bytes (`u8`) are embedded as `Nat`; all operations used (`&&&`, `|||`,
  `<<<` with shifts below 8) are exact on `Nat`, so no truncation is needed.
* Code of the repository that is not among the provided source files
  (the store engine `Store`, the reference `StoreModel`, `BufferStorage` and
  the `Position` arithmetic of `format.rs`) is abstracted: its observable
  behavior becomes fields of a structure or parameters of a definition, and
  definitions modelled from the specification text say so in their doc
  comment.
-/

namespace OpenSK

/-! ## Bit lengths (fuzz/src/lib.rs) -/

/-- Bit length of a natural number, with structural fuel: `bit_len f x` is the
number of bits needed to represent `x`, correct whenever `x < 2 ^ f`. This is
the mathematical content of the hardware `leading_zeros` intrinsic. -/
def bit_len : Nat → Nat → Nat
  | 0, _ => 0
  | fuel + 1, x => if x = 0 then 0 else bit_len fuel (x / 2) + 1

/-- Embeds `usize::leading_zeros` for a 64-bit `usize`: the number of zero bits
above the highest set bit. -/
def leading_zeros (x : Nat) : Nat := 64 - bit_len 64 x

/-- Embeds `num_bits` (fuzz/src/lib.rs lines 97-100):
`8 * size_of::<usize>() - x.leading_zeros()` with `size_of::<usize>() = 8`. -/
def num_bits (x : Nat) : Nat := 8 * 8 - leading_zeros x

/-! ## Entropy (fuzz/src/lib.rs) -/

/-- Embeds the `Entropy` reader: a byte slice and a cursor counting consumed
bits. -/
structure Entropy where
  data : List Nat
  bit : Nat
deriving DecidableEq

/-- Embeds the constant `MAX = usize::max_value() / 2`. -/
def MAX : Nat := (2 ^ 64 - 1) / 2

/-- Embeds `Entropy::is_empty`: the cursor reached the end of the data. -/
def Entropy.is_empty (s : Entropy) : Bool := s.bit == 8 * s.data.length

/-- Embeds `Entropy::read_bit`: `false` once the entropy is exhausted,
otherwise bit `bit % 8` of byte `bit / 8`, advancing the cursor. -/
def Entropy.read_bit (s : Entropy) : Bool × Entropy :=
  if s.is_empty then (false, s)
  else
    let b := s.bit
    ((s.data.getD (b / 8) 0 &&& (1 <<< (b % 8))) != 0, { s with bit := s.bit + 1 })

/-- The loop of `Entropy::read_bits`: accumulates `r |= read_bit() << i` for
the given number of remaining iterations. -/
def Entropy.read_bits_go (s : Entropy) (r : Nat) (i : Nat) : Nat → Nat × Entropy
  | 0 => (r, s)
  | n + 1 =>
    let p := s.read_bit
    Entropy.read_bits_go p.2 (r ||| ((if p.1 then 1 else 0) <<< i)) (i + 1) n

/-- Embeds `Entropy::read_bits`: reads `n` bits, least significant first.
The `assert!(n <= 8 * size_of::<usize>())` is embedded as the guard. -/
def Entropy.read_bits (s : Entropy) (n : Nat) : Option (Nat × Entropy) :=
  if n ≤ 8 * 8 then some (Entropy.read_bits_go s 0 0 n) else none

/-- Embeds `Entropy::read_range` (fuzz/src/lib.rs lines 75-81). The
`assert!(min <= max && max <= MAX)` is embedded as the guard. -/
def Entropy.read_range (s : Entropy) (min max : Nat) : Option (Nat × Entropy) :=
  if min ≤ max ∧ max ≤ MAX then
    let width := max - min
    match s.read_bits (num_bits width) with
    | some (bits, s') => some (min + bits % (width + 1), s')
    | none => none
  else none

/-- Embeds `Entropy::read_range_overflow` (fuzz/src/lib.rs lines 83-94):
`read_range(min, max + 2)`, mapping `0` to `u32::MAX as usize = 4294967295`
and any positive `value` to `value - 1`. -/
def Entropy.read_range_overflow (s : Entropy) (min max : Nat) : Option (Nat × Entropy) :=
  match s.read_range min (max + 2) with
  | some (value, s') => some (if 0 < value then value - 1 else 4294967295, s')
  | none => none

/-! ## Histogram buckets (fuzz/src/histogram.rs) -/

/-- Embeds `bucket_from_width` (histogram.rs lines 78-85). -/
def bucket_from_width (width : Nat) : Nat :=
  if width = 0 then 0 else 1 <<< (width - 1)

/-- Embeds `get_bucket` (histogram.rs lines 71-76). The
`assert!(bucket <= item && (item == 0 || item / 2 < bucket))` is embedded as
the guard: `none` models the panic. -/
def get_bucket (item : Nat) : Option Nat :=
  let bucket := bucket_from_width (num_bits item)
  if bucket ≤ item ∧ (item = 0 ∨ item / 2 < bucket) then some bucket else none

/-! ## BitStack (fuzz/src/store.rs lines 359-405)

The Rust `Vec<u8>` is embedded as a `List Nat` holding the most recent byte
first (the `Vec`'s last element is the list's head), so `Vec::push`,
`Vec::pop` and `last_mut` become list-head operations. -/

/-- Embeds `BitStack`: packed bits, `len` counting the bits used in the most
recent byte (`0` standing for a full byte, as in the source). -/
structure BitStack where
  data : List Nat
  len : Nat
deriving DecidableEq

/-- The `Default` instance of `BitStack`: the empty stack. -/
def BitStack.empty : BitStack := ⟨[], 0⟩

/-- Embeds `BitStack::push`: opens a fresh byte when the current one is full,
sets bit `len` of the most recent byte when pushing `true`, and wraps `len`
back to `0` at `8`. -/
def BitStack.push (s : BitStack) (value : Bool) : BitStack :=
  let data := if s.len = 0 then 0 :: s.data else s.data
  let data :=
    if value then
      match data with
      | [] => []
      | top :: rest => (top ||| (1 <<< s.len)) :: rest
    else data
  let len := s.len + 1
  { data := data, len := if len = 8 then 0 else len }

/-- Embeds `BitStack::pop`: `none` on the empty stack, otherwise reads bit
`len - 1` (with `len = 0` read as `8`) of the most recent byte and drops that
byte once its last bit is consumed. -/
def BitStack.pop (s : BitStack) : Option (Bool × BitStack) :=
  if s.len = 0 ∧ s.data = [] then none
  else
    let len := (if s.len = 0 then 8 else s.len) - 1
    let result := s.data.headD 0 &&& (1 <<< len)
    let data := if len = 0 then s.data.tail else s.data
    some (result != 0, { data := data, len := len })

/-- Embeds `BitStack::len` (the bit count of the stack). -/
def BitStack.length (s : BitStack) : Nat :=
  if s.len = 0 then 8 * s.data.length else 8 * (s.data.length - 1) + s.len

/-- Popping a `BitStack` until exhaustion (the harness of the LIFO property). -/
def BitStack.pop_all (s : BitStack) : List Bool :=
  match h : s.pop with
  | none => []
  | some (b, s') => b :: s'.pop_all
termination_by s.length
decreasing_by
  rcases s with ⟨data, len⟩
  simp only [BitStack.pop] at h
  split at h
  · exact absurd h (by simp)
  · rename_i hne
    simp only [Option.some.injEq, Prod.mk.injEq] at h
    obtain ⟨-, h2⟩ := h
    subst h2
    rcases data with - | ⟨top, rest⟩
    · have hlen : ¬ len = 0 := by simpa using hne
      simp only [BitStack.length, List.tail_nil]
      split_ifs <;>
        first
        | omega
        | (simp only [List.length_nil, List.length_cons]; omega)
    · simp only [BitStack.length, List.tail_cons]
      split_ifs <;>
        first
        | omega
        | (simp only [List.length_nil, List.length_cons]; omega)

/-- Pushing a list of bits in order onto a `BitStack`. -/
def BitStack.push_list (s : BitStack) (l : List Bool) : BitStack :=
  l.foldl BitStack.push s

/-- The bits of one byte in pop order: bits `k - 1, …, 0` of `b`. -/
def byte_bits (b : Nat) : Nat → List Bool
  | 0 => []
  | k + 1 => b.testBit k :: byte_bits b k

/-- Abstraction of a `BitStack` as its list of bits in pop order: the valid
bits of the most recent byte, then the full earlier bytes. -/
def BitStack.bits (s : BitStack) : List Bool :=
  match s.data with
  | [] => []
  | top :: rest =>
    byte_bits top (if s.len = 0 then 8 else s.len) ++
      rest.flatMap (fun b => byte_bits b 8)

/-- Well-formedness of a `BitStack` state: `len` below `8` and only reachable
with a nonempty buffer. -/
def BitStack.wf (s : BitStack) : Prop :=
  s.len < 8 ∧ (s.data = [] → s.len = 0)

/-- Cleanliness: well-formed, and the unused high bits of the most recent byte
are still zero (true of every stack built by pushes alone). -/
def BitStack.clean (s : BitStack) : Prop :=
  s.wf ∧ ∀ top rest, s.data = top :: rest → top < 2 ^ (if s.len = 0 then 8 else s.len)

/-! ## The store driver (src/driver.rs)

The driver couples a `Store` running on a `BufferStorage` with a `StoreModel`.
The store engine, the model and the buffer storage are not among the provided
source files; the driver only uses their observable behavior, which is
abstracted here as fields: the handles `iter` yields, the values `get_value`
and `inspect_value` read, the remaining capacity, the head and tail positions,
and the simulator's per-page erase and per-word write counters. -/

/-- Embeds `StoreError` (the store's error kinds, per the specification's
error taxonomy). -/
inductive StoreError where
  | invalidArgument
  | noCapacity
  | noLifetime
  | storageError
  | invalidStorage
deriving DecidableEq

/-- Embeds `StoreResult<()> = Result<(), StoreError>`. -/
inductive StoreResult where
  | ok
  | error (e : StoreError)
deriving DecidableEq

/-- Embeds `StoreInvariant` (driver.rs lines 62-104). -/
inductive StoreInvariant where
  | noLifetime
  | storeError (error : StoreError)
  | interrupted (rollback complete : StoreInvariant)
  | differentResult (store model : StoreResult)
  | notWiped (key : Nat) (value : List Nat)
  | onlyInStore (key : Nat)
  | differentValue (key : Nat) (store model : List Nat)
  | onlyInModel (key : Nat)
  | differentCapacity (store model : Nat)
  | differentErase (page store model : Nat)
  | differentWrite (page word store model : Nat)
deriving DecidableEq

/-- The formatting geometry used by the driver checks (word and page size in
bytes, number of pages). -/
structure Format where
  word_size : Nat
  page_size : Nat
  num_pages : Nat
deriving DecidableEq

/-- Modelled from the spec: the virtual page size is
`page_size - 2 * word_size` (two metadata words per page), counted in words. -/
def Format.virt_words (f : Format) : Nat := f.page_size / f.word_size - 2

/-- Modelled from the spec: a `Position` is a monotonically increasing
(cycle, page, word) triple addressing the infinite log of body words; it is
embedded as the corresponding word offset into that log (`format.rs` is not
among the provided source files). -/
def Position.new (f : Format) (cycle page word : Nat) : Nat :=
  (cycle * f.num_pages + page) * f.virt_words + word

/-- Modelled from the spec: the erase cycle a position lies in. -/
def Position.cycle (f : Format) (pos : Nat) : Nat :=
  pos / (f.num_pages * f.virt_words)

/-- Modelled from the spec: the page a position lies in. -/
def Position.page (f : Format) (pos : Nat) : Nat :=
  pos / f.virt_words % f.num_pages

/-- The observable counters of a `BufferStorage`: per-page erase counts and
per-word write counts (modelled from the spec's description of the buffer
storage simulator; `buffer.rs` is not among the provided source files). -/
structure Storage where
  get_page_erases : Nat → Nat
  get_word_writes : Nat → Nat

/-- A `StoreHandle` as the driver uses it: its key (`get_key`). Values are
read through the store, below. -/
structure StoreHandle where
  key : Nat
deriving DecidableEq

/-- The observable behavior of a `Store<BufferStorage>` used by the driver
checks (the store engine is not among the provided source files): geometry,
the underlying storage counters, head and tail, the handles of `iter`, the
value reads, and the remaining capacity. -/
structure Store where
  format : Format
  storage : Storage
  head : Nat
  tail : Nat
  iter : List StoreHandle
  get_value : StoreHandle → List Nat
  inspect_value : StoreHandle → List Nat
  capacity_remaining : Nat

/-- The observable state of a `StoreModel`: its key-value map (an association
list standing for the `HashMap`) and its remaining capacity. -/
structure StoreModel where
  map : List (Nat × List Nat)
  capacity_remaining : Nat

/-- Embeds `StoreDriverOn` (driver.rs lines 33-41). -/
structure StoreDriverOn where
  store : Store
  model : StoreModel

/-- Embeds `Complete` (driver.rs lines 51-55): the model and wiped handles if
the interrupted operation would complete. -/
structure Complete where
  model : StoreModel
  deleted : List StoreHandle

/-- Embeds `StoreDriverOff` (driver.rs lines 43-49). -/
structure StoreDriverOff where
  storage : Storage
  model : StoreModel
  complete : Option Complete

/-- Embeds `StoreDriver` (driver.rs lines 23-31). -/
inductive StoreDriver where
  | on (driver : StoreDriverOn)
  | off (driver : StoreDriverOff)

/-- Embeds `StoreDriverOn::check_deleted` (driver.rs lines 378-389): every
deleted handle must read as all-zero bytes through `inspect_value`; the first
offender yields `NotWiped` with its key and value. -/
def check_deleted (store : Store) : List StoreHandle → Except StoreInvariant Unit
  | [] => .ok ()
  | handle :: rest =>
    let value := store.inspect_value handle
    if value.all (fun x => x == 0) then check_deleted store rest
    else .error (.notWiped handle.key value)

/-- Removing a key from the model map clone (`model_map.remove(&key)` on the
association list standing for the `HashMap`). -/
def remove_key : List (Nat × List Nat) → Nat → Option (List Nat) × List (Nat × List Nat)
  | [], _ => (none, [])
  | (k, v) :: rest, key =>
    if k = key then (some v, rest)
    else
      let r := remove_key rest key
      (r.1, (k, v) :: r.2)

/-- The iteration of `StoreDriverOn::check_model` over the store's handles:
each handle's key must be in the (remaining) model map with the same value;
returns the part of the model map not covered by the store. -/
def check_model_handles (store : Store) :
    List StoreHandle → List (Nat × List Nat) → Except StoreInvariant (List (Nat × List Nat))
  | [], map => .ok map
  | handle :: rest, map =>
    match remove_key map handle.key with
    | (none, _) => .error (.onlyInStore handle.key)
    | (some model_value, map') =>
      let store_value := store.get_value handle
      if store_value = model_value then check_model_handles store rest map'
      else .error (.differentValue handle.key store_value model_value)

/-- Embeds `StoreDriverOn::check_model` (driver.rs lines 391-424): the store's
iteration matches the model map exactly and the capacities agree. -/
def check_model (store : Store) (model : StoreModel) : Except StoreInvariant Unit :=
  match check_model_handles store store.iter model.map with
  | .error e => .error e
  | .ok remaining =>
    match remaining with
    | (key, _) :: _ => .error (.onlyInModel key)
    | [] =>
      if store.capacity_remaining = model.capacity_remaining then .ok ()
      else .error (.differentCapacity store.capacity_remaining model.capacity_remaining)

/-- The body-word loop of `StoreDriverOn::check_storage` (driver.rs lines
474-489): for each body word, the model may only have written words the store
believes are before the tail. -/
def check_storage_words (store : Store) (page page_pos num_words : Nat) :
    List Nat → Except StoreInvariant Unit
  | [] => .ok ()
  | word :: rest =>
    let store_write := if page_pos + (word - 2) < store.tail then 1 else 0
    let model_write := if 0 < store.storage.get_word_writes (page * num_words + word) then 1 else 0
    if store_write < model_write then
      .error (.differentWrite page word store_write model_write)
    else check_storage_words store page page_pos num_words rest

/-- The per-page body of `StoreDriverOn::check_storage` (driver.rs lines
432-490): erase cycle, init word (word 0), compact info (word 1), then the
body words. -/
def check_storage_page (store : Store) (page : Nat) : Except StoreInvariant Unit :=
  let format := store.format
  let num_words := format.page_size / format.word_size
  let head := store.head
  let tail := store.tail
  let store_erase := Position.cycle format head + (if page < Position.page format head then 1 else 0)
  let model_erase := store.storage.get_page_erases page
  if store_erase ≠ model_erase then .error (.differentErase page store_erase model_erase)
  else
    let page_pos := Position.new format model_erase page 0
    let store_write :=
      if page = 0 ∧ tail = Position.new format 0 0 0 then 1
      else if page_pos < tail then 1 else 0
    let model_write := store.storage.get_word_writes (page * num_words)
    if store_write ≠ model_write then .error (.differentWrite page 0 store_write model_write)
    else
      let model_write1 := store.storage.get_word_writes (page * num_words + 1)
      if 0 ≠ model_write1 then .error (.differentWrite page 1 0 model_write1)
      else check_storage_words store page page_pos num_words (List.range' 2 (num_words - 2))

/-- The page loop of `check_storage`. -/
def check_storage_pages (store : Store) : List Nat → Except StoreInvariant Unit
  | [] => .ok ()
  | page :: rest =>
    match check_storage_page store page with
    | .ok _ => check_storage_pages store rest
    | .error e => .error e

/-- Embeds `StoreDriverOn::check_storage` (driver.rs lines 426-492). -/
def check_storage (store : Store) : Except StoreInvariant Unit :=
  check_storage_pages store (List.range store.format.num_pages)

/-- Embeds `StoreDriverOn::recover_check` (driver.rs lines 371-376). -/
def recover_check (store : Store) (model : StoreModel) (deleted : List StoreHandle) :
    Except StoreInvariant Unit :=
  match check_deleted store deleted with
  | .error e => .error e
  | .ok _ =>
    match check_model store model with
    | .error e => .error e
    | .ok _ => check_storage store

/-- Embeds `StoreDriverOn::new` (driver.rs lines 359-369): runs
`recover_check` and returns the driver, or the invariant failure together
with the store. -/
def StoreDriverOn.new (store : Store) (model : StoreModel) (deleted : List StoreHandle) :
    Except (StoreInvariant × Store) StoreDriverOn :=
  match recover_check store model deleted with
  | .ok _ => .ok ⟨store, model⟩
  | .error e => .error (e, store)

/-- Embeds `StoreDriverOff::partial_power_on` (driver.rs lines 172-213). The
outcome of `Store::new` on the (interruption-armed) storage is abstracted as
the argument `new_result`, and the effect of `corrupt_operation` with the
interruption's corruption function as `corrupt`. When the store powers on,
recovery is checked against the recorded `complete` candidate first and then
against the rollback model; when both fail, both failures are reported as
`Interrupted`. -/
def StoreDriverOff.partial_power_on (driver : StoreDriverOff)
    (new_result : Except (StoreError × Storage) Store) (corrupt : Storage → Storage) :
    Except (Storage × StoreInvariant) StoreDriver :=
  match new_result with
  | .ok store =>
    match driver.complete with
    | some complete =>
      match StoreDriverOn.new store complete.model complete.deleted with
      | .ok driver_on => .ok (.on driver_on)
      | .error (e, store') =>
        match StoreDriverOn.new store' driver.model [] with
        | .ok driver_on => .ok (.on driver_on)
        | .error (rollback, store2) =>
          .error (store2.storage, .interrupted rollback e)
    | none =>
      match StoreDriverOn.new store driver.model [] with
      | .ok driver_on => .ok (.on driver_on)
      | .error (rollback, store2) => .error (store2.storage, rollback)
  | .error (.storageError, storage) =>
    .ok (.off { driver with storage := corrupt storage })
  | .error (e, storage) => .error (storage, .storeError e)

/-- Embeds the comparison logic of `StoreDriverOn::apply` (driver.rs lines
254-265). The store's and the model's application of the operation are not
among the provided source files, so their outputs are abstracted as arguments:
`store` is the store after the operation, `deleted` the handles the operation
deleted, and `store_result`/`model_result` the two result codes. -/
def StoreDriverOn.apply (store : Store) (deleted : List StoreHandle)
    (store_result model_result : StoreResult) : Except StoreInvariant Unit :=
  if store_result ≠ model_result then
    .error (.differentResult store_result model_result)
  else check_deleted store deleted

/-! ## The delay map (driver.rs lines 216-234, 314-332, 504-516)

`StoreDriverOff::delay_map` and `StoreDriverOn::delay_map` run the very same
loop: arm an interruption with increasing delay, replay the boot (resp. the
operation) on a clone, and record how many bits the interrupted atomic
operation would have modified, until the replay is no longer interrupted.
The replayed run is abstracted, modelled from the spec's description of the
buffer storage simulator: a run is a finite sequence of atomic flash
operations (each modifying a positive number of bits on uninterrupted
hardware), and arming a countdown of `delay` makes the run fail with
`StorageError` exactly when it needs more than `delay` atomic operations. -/

/-- Modelled from the spec: an interruptible run (a boot, or one store
operation). `bits` lists, per atomic flash operation of the run, the number
of bits that operation modifies; `final` is the store's result when the run
is not interrupted (`none` standing for `Ok`). The simulator generates
`StorageError` only through an armed interruption, so `final` is never
`StorageError`. -/
structure InterruptedRun where
  bits : List Nat
  final : Option StoreError
  final_ok : final ≠ some StoreError.storageError

/-- Modelled from the spec: the result of the run with an interruption armed
after `delay` atomic operations: interrupted (hence `StorageError`) exactly
when the run has more than `delay` atomic operations. -/
def run_armed (r : InterruptedRun) (delay : Nat) : Option StoreError :=
  if delay < r.bits.length then some .storageError else r.final

/-- Embeds `count_modified_bits` (driver.rs lines 504-516) applied to the
storage of the run interrupted after `delay` operations: the bits the
`delay + 1`-th atomic operation would modify; `none` models the
`assert!(modified_bits > 0)` panic. -/
def count_modified_bits (r : InterruptedRun) (delay : Nat) : Option Nat :=
  let n := r.bits.getD delay 0
  if 0 < n then some n else none

/-- The three outcomes of `delay_map`: `Ok(vec)`, `Err((delay, storage))`
on `InvalidStorage`, or a panic of `count_modified_bits`. -/
inductive DelayMapResult where
  | ok (map : List Nat)
  | invalid (delay : Nat)
  | panicked
deriving DecidableEq

/-- The loop of `delay_map` (driver.rs lines 216-234 and 314-332), starting
at a given delay (the source's `result.len()`): while the armed run is
interrupted, record the modified-bit count and retry with the next delay;
return the delay on `InvalidStorage`; push a final `0` once the run is no
longer interrupted. The loop is interrupted (hence iterates) exactly while
`delay < r.bits.length`, so `r.bits.length + 1 - delay` iterations always
suffice; `fuel` carries that bound structurally and the fuel-exhausted case
is unreachable from `delay_map`. -/
def delay_map_go (r : InterruptedRun) : Nat → Nat → DelayMapResult
  | _, 0 => .panicked
  | delay, fuel + 1 =>
    match run_armed r delay with
    | some .storageError =>
      match count_modified_bits r delay with
      | none => .panicked
      | some n =>
        match delay_map_go r (delay + 1) fuel with
        | .ok map => .ok (n :: map)
        | e => e
    | some .invalidStorage => .invalid delay
    | _ => .ok [0]

/-- Embeds `StoreDriverOff::delay_map` and `StoreDriverOn::delay_map`: the
loop started at delay `0`. -/
def delay_map (r : InterruptedRun) : DelayMapResult :=
  delay_map_go r 0 (r.bits.length + 1)

/-! ### Concrete driver states used to instantiate the theorems -/

/-- A consistent fresh store on 3 pages of 8 words: head and tail at the
origin, no page erased, only the init word of page 0 written once. -/
def store_fresh : Store :=
  { format := ⟨4, 32, 3⟩
    storage := ⟨fun _ => 0, fun i => if i = 0 then 1 else 0⟩
    head := 0
    tail := 0
    iter := []
    get_value := fun _ => []
    inspect_value := fun _ => []
    capacity_remaining := 0 }

/-- The fresh store of `store_fresh` with the init word of page 0 not counted
as written: every metadata word count is at most its expected value, yet the
storage check rejects the state. -/
def store_low : Store :=
  { format := ⟨4, 32, 3⟩
    storage := ⟨fun _ => 0, fun _ => 0⟩
    head := 0
    tail := 0
    iter := []
    get_value := fun _ => []
    inspect_value := fun _ => []
    capacity_remaining := 0 }

/-- A store whose iteration is empty (so any nonempty model map fails the
model check): used to exercise the `Interrupted` path of power-on. -/
def store_bad : Store :=
  { format := ⟨4, 32, 3⟩
    storage := ⟨fun _ => 0, fun _ => 0⟩
    head := 0
    tail := 0
    iter := []
    get_value := fun _ => []
    inspect_value := fun _ => []
    capacity_remaining := 0 }

/-- An off driver whose rollback model holds key 5 and whose complete
candidate holds key 7, neither of which the store can produce. -/
def off_bad : StoreDriverOff :=
  { storage := store_bad.storage
    model := ⟨[(5, [])], 0⟩
    complete := some ⟨⟨[(7, [])], 0⟩, []⟩ }

/-- A run of two atomic operations modifying 3 and 2 bits. -/
def run_ex : InterruptedRun := ⟨[3, 2], none, by simp⟩

/-! ## Helper lemmas -/

/-- With enough fuel, `bit_len` is the least `n` with `x < 2 ^ n`. -/
theorem bit_len_spec : ∀ fuel x, x < 2 ^ fuel →
    x < 2 ^ bit_len fuel x ∧ ∀ n, x < 2 ^ n → bit_len fuel x ≤ n := by
  intro fuel
  induction fuel with
  | zero =>
    intro x hx
    have hx0 : x = 0 := by simpa using hx
    subst hx0
    simp [bit_len]
  | succ fuel ih =>
    intro x hx
    by_cases h0 : x = 0
    · subst h0
      simp [bit_len]
    · rw [bit_len, if_neg h0]
      rw [pow_succ] at hx
      have hx2 : x / 2 < 2 ^ fuel := by omega
      obtain ⟨h1, h2⟩ := ih (x / 2) hx2
      refine ⟨by rw [pow_succ]; omega, ?_⟩
      intro n hn
      have hn0 : n ≠ 0 := by
        rintro rfl
        simp at hn
        omega
      obtain ⟨m, rfl⟩ := Nat.exists_eq_succ_of_ne_zero hn0
      rw [pow_succ] at hn
      have := h2 m (by omega)
      omega

/-- For a 64-bit value, `num_bits` is the bit length. -/
theorem num_bits_eq_bit_len (x : Nat) (hx : x < 2 ^ 64) : num_bits x = bit_len 64 x := by
  have h := (bit_len_spec 64 x hx).2 64 hx
  simp only [num_bits, leading_zeros]
  omega

/-- `num_bits` never exceeds 64. -/
theorem num_bits_le (x : Nat) : num_bits x ≤ 8 * 8 := by
  simp only [num_bits, leading_zeros]
  omega

/-- The bit length of a nonzero 64-bit value is positive and brackets the
value between two consecutive powers of two. -/
theorem bit_len_bracket (x : Nat) (hx : x < 2 ^ 64) (h0 : x ≠ 0) :
    0 < bit_len 64 x ∧ 2 ^ (bit_len 64 x - 1) ≤ x ∧ x < 2 ^ bit_len 64 x := by
  obtain ⟨h1, h2⟩ := bit_len_spec 64 x hx
  have hpos : 0 < bit_len 64 x := by
    rcases Nat.eq_zero_or_pos (bit_len 64 x) with h | h
    · rw [h] at h1
      omega
    · exact h
  refine ⟨hpos, ?_, h1⟩
  by_contra hc
  push_neg at hc
  have := h2 (bit_len 64 x - 1) hc
  omega

/-- Reading bits from exhausted entropy accumulates nothing and leaves the
state unchanged. -/
theorem read_bits_go_empty (s : Entropy) (hs : s.is_empty = true) :
    ∀ n r i, Entropy.read_bits_go s r i n = (r, s) := by
  intro n
  induction n with
  | zero => intro r i; rfl
  | succ n ih =>
    intro r i
    rw [Entropy.read_bits_go]
    simp only [Entropy.read_bit, hs, if_true]
    simp [ih]

/-- Whatever `read_range` returns lies between its bounds. -/
theorem read_range_bounds (s : Entropy) (mn mx v : Nat) (s' : Entropy)
    (h : Entropy.read_range s mn mx = some (v, s')) : mn ≤ v ∧ v ≤ mx := by
  simp only [Entropy.read_range] at h
  split at h
  · rename_i hg
    rw [Entropy.read_bits, if_pos (num_bits_le (mx - mn))] at h
    rcases hgo : Entropy.read_bits_go s 0 0 (num_bits (mx - mn)) with ⟨bits, t⟩
    rw [hgo] at h
    simp only [Option.some.injEq, Prod.mk.injEq] at h
    obtain ⟨hv, -⟩ := h
    have hmod : bits % (mx - mn + 1) < mx - mn + 1 := Nat.mod_lt bits (Nat.succ_pos _)
    omega
  · exact absurd h (by simp)

/-! ## C6: read_range stays in its range -/

/-- C6: for every `min ≤ max ≤ usize::MAX / 2` and every entropy content,
`Entropy::read_range(min, max)` returns a value `v` with `min ≤ v ≤ max`. -/
theorem read_range_in_range (s : Entropy) (mn mx : Nat) (h1 : mn ≤ mx) (h2 : mx ≤ MAX) :
    ∃ v s', Entropy.read_range s mn mx = some (v, s') ∧ mn ≤ v ∧ v ≤ mx := by
  rcases hgo : Entropy.read_bits_go s 0 0 (num_bits (mx - mn)) with ⟨bits, t⟩
  refine ⟨mn + bits % (mx - mn + 1), t, ?_, by omega, ?_⟩
  · simp only [Entropy.read_range]
    rw [if_pos (And.intro h1 h2), Entropy.read_bits, if_pos (num_bits_le (mx - mn)), hgo]
  · have hmod : bits % (mx - mn + 1) < mx - mn + 1 := Nat.mod_lt bits (Nat.succ_pos _)
    omega

/-- Witness for C6 at `min = 0`, `max = 7` on one byte of entropy. -/
theorem read_range_in_range_witness :
    ∃ v s', Entropy.read_range ⟨[43], 0⟩ 0 7 = some (v, s') ∧ 0 ≤ v ∧ v ≤ 7 :=
  read_range_in_range ⟨[43], 0⟩ 0 7 (by norm_num) (by norm_num [MAX])

/-! ## C10: exhausted entropy is deterministic -/

/-- C10: once an `Entropy` source is exhausted, `read_bit` returns `false`
(leaving the state unchanged), so `read_bits` returns `0` and
`read_range(min, max)` deterministically returns `min` for `min ≤ max ≤
usize::MAX / 2`. -/
theorem entropy_exhausted (s : Entropy) (hs : s.is_empty = true) :
    s.read_bit = (false, s) ∧
    (∀ n, n ≤ 8 * 8 → s.read_bits n = some (0, s)) ∧
    (∀ mn mx, mn ≤ mx → mx ≤ MAX → s.read_range mn mx = some (mn, s)) := by
  refine ⟨by simp [Entropy.read_bit, hs], ?_, ?_⟩
  · intro n hn
    rw [Entropy.read_bits, if_pos hn, read_bits_go_empty s hs]
  · intro mn mx h1 h2
    simp only [Entropy.read_range]
    rw [if_pos (And.intro h1 h2), Entropy.read_bits, if_pos (num_bits_le (mx - mn)),
      read_bits_go_empty s hs]
    simp

/-- Witness for C10 on the empty entropy source. -/
theorem entropy_exhausted_witness :
    Entropy.read_bit ⟨[], 0⟩ = (false, ⟨[], 0⟩) ∧
    Entropy.read_bits ⟨[], 0⟩ 5 = some (0, ⟨[], 0⟩) ∧
    Entropy.read_range ⟨[], 0⟩ 3 7 = some (3, ⟨[], 0⟩) := by
  obtain ⟨h1, h2, h3⟩ := entropy_exhausted ⟨[], 0⟩ (by rfl)
  exact ⟨h1, h2 5 (by norm_num), h3 3 7 (by norm_num) (by norm_num [MAX])⟩

/-! ## C5: the values of read_range_overflow (corrected) -/

/-- C5 counterexample: at `min = 1`, `max = 1` (so `min ≤ max` and `max + 2`
is representable), on empty entropy `read_range_overflow` returns `0`, which
is neither in `[1, 1]` nor `max + 1 = 2` nor `u32::MAX`. -/
theorem read_range_overflow_cex :
    Entropy.read_range_overflow ⟨[], 0⟩ 1 1 = some (0, ⟨[], 0⟩) ∧
    ¬((1 ≤ 0 ∧ 0 ≤ 1) ∨ (0 : Nat) = 1 + 1 ∨ (0 : Nat) = 4294967295) := by
  refine ⟨by rfl, by norm_num⟩

/-- C5 amended: every value `read_range_overflow(min, max)` returns, for
`min ≤ max` and any entropy content, is a valid value in `[min, max]` or one
of the invalid values `min - 1` (possible only when `min > 0`), `max + 1` and
`u32::MAX`. -/
theorem read_range_overflow_spec (s : Entropy) (mn mx v : Nat) (s' : Entropy)
    (hle : mn ≤ mx) (h : Entropy.read_range_overflow s mn mx = some (v, s')) :
    (mn ≤ v ∧ v ≤ mx) ∨ v = mx + 1 ∨ v = 4294967295 ∨ (0 < mn ∧ v = mn - 1) := by
  rw [Entropy.read_range_overflow] at h
  rcases hr : Entropy.read_range s mn (mx + 2) with - | ⟨value, t⟩
  · rw [hr] at h
    exact absurd h (by simp)
  · rw [hr] at h
    obtain ⟨hlo, hhi⟩ := read_range_bounds s mn (mx + 2) value t hr
    simp only [Option.some.injEq, Prod.mk.injEq] at h
    obtain ⟨hv, -⟩ := h
    by_cases h0 : 0 < value
    · rw [if_pos h0] at hv
      omega
    · rw [if_neg h0] at hv
      omega

/-- Witness for C5 at `min = max = 0` on empty entropy (the `u32::MAX`
branch). -/
theorem read_range_overflow_spec_witness :
    ((0 : Nat) ≤ 4294967295 ∧ (4294967295 : Nat) ≤ 0) ∨ (4294967295 : Nat) = 0 + 1 ∨
      (4294967295 : Nat) = 4294967295 ∨ ((0 : Nat) < 0 ∧ (4294967295 : Nat) = 0 - 1) :=
  read_range_overflow_spec ⟨[], 0⟩ 0 0 4294967295 ⟨[], 0⟩ (by norm_num) (by rfl)

/-! ## C7: num_bits is the ceiling base-2 logarithm of x + 1 -/

/-- C7: for every `usize` value `x`, `num_bits x = ⌈log₂ (x + 1)⌉`, and the
enumerated boundary values 0, 1, 2, 3, 4, 7, 8, 15, 16 map to
0, 1, 2, 2, 3, 3, 4, 4, 5. -/
theorem num_bits_clog :
    (∀ x, x < 2 ^ 64 → num_bits x = Nat.clog 2 (x + 1)) ∧
    num_bits 0 = 0 ∧ num_bits 1 = 1 ∧ num_bits 2 = 2 ∧ num_bits 3 = 2 ∧
    num_bits 4 = 3 ∧ num_bits 7 = 3 ∧ num_bits 8 = 4 ∧ num_bits 15 = 4 ∧
    num_bits 16 = 5 := by
  refine ⟨?_, by decide, by decide, by decide, by decide, by decide, by decide,
    by decide, by decide, by decide⟩
  intro x hx
  rw [num_bits_eq_bit_len x hx]
  obtain ⟨h1, h2⟩ := bit_len_spec 64 x hx
  apply Nat.le_antisymm
  · apply h2
    have := Nat.le_pow_clog (by norm_num : (1 : Nat) < 2) (x + 1)
    omega
  · rw [← Nat.le_pow_iff_clog_le (by norm_num : (1 : Nat) < 2)]
    omega

/-- Witness for C7 at `x = 5`. -/
theorem num_bits_clog_witness : num_bits 5 = Nat.clog 2 6 :=
  num_bits_clog.1 5 (by norm_num)

/-! ## C8: get_bucket is the highest power of two below the item -/

/-- C8: for every `usize` item, `get_bucket` returns (without tripping its
assertion) `0` for item `0` and otherwise the largest power of two at most
the item; the enumerated values 0, 1, 2, 3, 4, 7, 8, 15 map to
0, 1, 2, 2, 4, 4, 8, 8. -/
theorem get_bucket_spec :
    (∀ item, item < 2 ^ 64 → ∃ b, get_bucket item = some b ∧
      (item = 0 → b = 0) ∧
      (item ≠ 0 → (∃ k, b = 2 ^ k) ∧ b ≤ item ∧ ∀ k, 2 ^ k ≤ item → 2 ^ k ≤ b)) ∧
    get_bucket 0 = some 0 ∧ get_bucket 1 = some 1 ∧ get_bucket 2 = some 2 ∧
    get_bucket 3 = some 2 ∧ get_bucket 4 = some 4 ∧ get_bucket 7 = some 4 ∧
    get_bucket 8 = some 8 ∧ get_bucket 15 = some 8 := by
  refine ⟨?_, by decide, by decide, by decide, by decide, by decide, by decide,
    by decide, by decide⟩
  intro item hx
  by_cases h0 : item = 0
  · subst h0
    exact ⟨0, by decide, fun _ => rfl, fun h => absurd rfl h⟩
  · obtain ⟨hpos, hlo, hhi⟩ := bit_len_bracket item hx h0
    have hnb : num_bits item = bit_len 64 item := num_bits_eq_bit_len item hx
    have hbw : bucket_from_width (num_bits item) = 2 ^ (bit_len 64 item - 1) := by
      rw [hnb, bucket_from_width, if_neg (by omega), Nat.shiftLeft_eq, one_mul]
    refine ⟨2 ^ (bit_len 64 item - 1), ?_, fun h => absurd h h0, fun _ => ⟨⟨_, rfl⟩, hlo, ?_⟩⟩
    · rw [get_bucket]
      simp only [hbw]
      rw [if_pos]
      constructor
      · exact hlo
      · right
        have h2 : (2 : Nat) ^ bit_len 64 item = 2 ^ (bit_len 64 item - 1) * 2 := by
          rw [← pow_succ]
          congr 1
          omega
        omega
    · intro k hk
      have hk2 : k < bit_len 64 item := by
        by_contra hc
        push_neg at hc
        have : (2 : Nat) ^ bit_len 64 item ≤ 2 ^ k := Nat.pow_le_pow_right (by norm_num) hc
        omega
      exact Nat.pow_le_pow_right (by norm_num) (by omega)

/-- Witness for C8 at item 5. -/
theorem get_bucket_spec_witness :
    ∃ b, get_bucket 5 = some b ∧ ((5 : Nat) = 0 → b = 0) ∧
      ((5 : Nat) ≠ 0 → (∃ k, b = 2 ^ k) ∧ b ≤ 5 ∧ ∀ k, 2 ^ k ≤ 5 → 2 ^ k ≤ b) :=
  get_bucket_spec.1 5 (by norm_num)

/-! ## BitStack lemmas -/

/-- Testing a single masked bit is `testBit`. -/
theorem and_two_pow_ne (b k : Nat) : ((b &&& (1 <<< k)) != 0) = b.testBit k := by
  rw [Nat.shiftLeft_eq, one_mul, Nat.and_two_pow]
  cases h : b.testBit k <;> simp [h, Nat.pos_iff_ne_zero]

/-- Setting bit `j` does not change the bits below `k ≤ j`. -/
theorem byte_bits_lor_high (b j : Nat) : ∀ k, k ≤ j → byte_bits (b ||| (1 <<< j)) k = byte_bits b k := by
  intro k
  induction k with
  | zero => intro _; rfl
  | succ k ih =>
    intro hk
    rw [byte_bits, byte_bits, ih (by omega)]
    congr 1
    rw [Nat.testBit_lor, Nat.shiftLeft_eq, one_mul, Nat.testBit_two_pow_of_ne (by omega)]
    simp

/-- Unfolding one bit of `byte_bits` at a positive length. -/
theorem byte_bits_succ_of_pos (b len : Nat) (h : 0 < len) :
    byte_bits b len = b.testBit (len - 1) :: byte_bits b (len - 1) := by
  obtain ⟨m, rfl⟩ := Nat.exists_eq_succ_of_ne_zero (by omega : len ≠ 0)
  simp [byte_bits]

/-- When the top byte is full, the bits are just the bytes' bits. -/
theorem bits_len_zero (s : BitStack) (h : s.len = 0) :
    s.bits = s.data.flatMap (fun b => byte_bits b 8) := by
  rcases hd : s.data with - | ⟨top, rest⟩
  · simp [BitStack.bits, hd]
  · simp [BitStack.bits, hd, h]

/-- Pushing a bit on a clean stack prepends it to the abstraction and keeps
the stack clean. -/
theorem push_bits (s : BitStack) (v : Bool) (hs : s.clean) :
    (s.push v).bits = v :: s.bits ∧ (s.push v).clean := by
  rcases s with ⟨data, len⟩
  obtain ⟨⟨hlt, hemp⟩, hclean⟩ := hs
  replace hlt : len < 8 := hlt
  replace hemp : data = [] → len = 0 := hemp
  replace hclean : ∀ t r, data = t :: r → t < 2 ^ (if len = 0 then 8 else len) := hclean
  by_cases h0 : len = 0
  · subst h0
    have hpush : BitStack.push ⟨data, 0⟩ v = ⟨(if v then 1 else 0) :: data, 1⟩ := by
      cases v <;> simp [BitStack.push]
    rw [hpush]
    refine ⟨?_, ⟨by norm_num, by simp⟩, ?_⟩
    · rw [bits_len_zero ⟨data, 0⟩ rfl]
      cases v <;> simp [BitStack.bits, byte_bits]
    · intro t r h
      replace h : (if v then 1 else 0) :: data = t :: r := h
      simp only [List.cons.injEq] at h
      have : t < 2 ^ (1 : Nat) := by
        rw [← h.1]
        cases v <;> norm_num
      simpa using this
  · rcases hd : data with - | ⟨top, rest⟩
    · exact absurd (hemp hd) h0
    subst hd
    have htop : top < 2 ^ len := by
      have := hclean top rest rfl
      rwa [if_neg h0] at this
    have hpush : BitStack.push ⟨top :: rest, len⟩ v =
        ⟨(if v then top ||| (1 <<< len) else top) :: rest,
          if len + 1 = 8 then 0 else len + 1⟩ := by
      cases v <;> simp [BitStack.push, h0]
    rw [hpush]
    have h2p : (2 : Nat) ^ len < 2 ^ (len + 1) := by
      rw [pow_succ]
      have := Nat.pos_pow_of_pos len (by norm_num : 0 < 2)
      omega
    have hv : (if v then top ||| (1 <<< len) else top) < 2 ^ (len + 1) := by
      cases v
      · simp only [Bool.false_eq_true, if_false]
        omega
      · simp only [if_true]
        apply Nat.or_lt_two_pow (by omega)
        rw [Nat.shiftLeft_eq, one_mul]
        omega
    have heff : (if (if len + 1 = 8 then 0 else len + 1) = 0 then 8 else
        if len + 1 = 8 then 0 else len + 1) = len + 1 := by
      by_cases h8 : len + 1 = 8
      · simp [h8]
      · simp [h8]
    have htb : Nat.testBit (if v then top ||| (1 <<< len) else top) len = v := by
      cases v
      · simpa using Nat.testBit_lt_two_pow htop
      · simp only [if_true]
        rw [Nat.testBit_lor, Nat.shiftLeft_eq, one_mul, Nat.testBit_two_pow_self]
        simp
    have hlow : byte_bits (if v then top ||| (1 <<< len) else top) len = byte_bits top len := by
      cases v
      · rfl
      · simpa using byte_bits_lor_high top len len le_rfl
    refine ⟨?_, ⟨?_, by simp⟩, ?_⟩
    · show byte_bits (if v then top ||| (1 <<< len) else top)
          (if (if len + 1 = 8 then 0 else len + 1) = 0 then 8 else
            if len + 1 = 8 then 0 else len + 1) ++ rest.flatMap (fun b => byte_bits b 8) =
        v :: (byte_bits top (if len = 0 then 8 else len) ++ rest.flatMap (fun b => byte_bits b 8))
      rw [heff, if_neg h0, byte_bits_succ_of_pos _ (len + 1) (by omega)]
      simp only [Nat.add_sub_cancel, htb, hlow]
      rfl
    · show (if len + 1 = 8 then 0 else len + 1) < 8
      by_cases h8 : len + 1 = 8
      · simp [h8]
      · rw [if_neg h8]
        omega
    · intro t r h
      replace h : (if v then top ||| (1 <<< len) else top) :: rest = t :: r := h
      simp only [List.cons.injEq] at h
      show t < 2 ^ (if (if len + 1 = 8 then 0 else len + 1) = 0 then 8 else
        if len + 1 = 8 then 0 else len + 1)
      rw [heff, ← h.1]
      exact hv

/-- Pushing a list of bits on a clean stack reverses it onto the
abstraction. -/
theorem push_list_bits (l : List Bool) : ∀ s : BitStack, s.clean →
    (s.push_list l).clean ∧ (s.push_list l).bits = l.reverse ++ s.bits := by
  induction l with
  | nil =>
    intro s hs
    exact ⟨hs, by simp [BitStack.push_list]⟩
  | cons v l ih =>
    intro s hs
    obtain ⟨hb, hc⟩ := push_bits s v hs
    obtain ⟨hc', hb'⟩ := ih (s.push v) hc
    have hfold : s.push_list (v :: l) = (s.push v).push_list l := by
      simp [BitStack.push_list]
    rw [hfold]
    refine ⟨hc', ?_⟩
    rw [hb', hb]
    simp

/-- On a well-formed stack with an empty buffer, `pop` yields nothing. -/
theorem pop_empty (s : BitStack) (hw : s.wf) (hd : s.data = []) : s.pop = none := by
  rw [BitStack.pop, if_pos ⟨hw.2 hd, hd⟩]

/-- On a well-formed stack with a nonempty buffer, `pop` yields the head of
the abstraction and a well-formed remainder. -/
theorem pop_view (s : BitStack) (hw : s.wf) (hne : s.data ≠ []) :
    ∃ b s', s.pop = some (b, s') ∧ s.bits = b :: s'.bits ∧ s'.wf := by
  rcases s with ⟨data, len⟩
  rcases data with - | ⟨top, rest⟩
  · exact absurd rfl hne
  obtain ⟨hlt, -⟩ := hw
  replace hlt : len < 8 := hlt
  by_cases h0 : len = 0
  · subst h0
    refine ⟨Nat.testBit top 7, ⟨top :: rest, 7⟩, ?_, ?_, ⟨by norm_num, by simp⟩⟩
    · rw [BitStack.pop, if_neg (by simp), ← and_two_pow_ne]
      rfl
    · simp [BitStack.bits, byte_bits]
  · by_cases h1 : len = 1
    · subst h1
      refine ⟨Nat.testBit top 0, ⟨rest, 0⟩, ?_, ?_, ⟨by norm_num, fun _ => rfl⟩⟩
      · rw [BitStack.pop, if_neg (by simp), ← and_two_pow_ne]
        rfl
      · rw [bits_len_zero ⟨rest, 0⟩ rfl]
        simp [BitStack.bits, byte_bits]
    · refine ⟨Nat.testBit top (len - 1), ⟨top :: rest, len - 1⟩, ?_, ?_,
        ⟨by show len - 1 < 8; omega, by simp⟩⟩
      · have hc : ¬((⟨top :: rest, len⟩ : BitStack).len = 0 ∧
            (⟨top :: rest, len⟩ : BitStack).data = []) := by simp [h0]
        rw [BitStack.pop, if_neg hc, ← and_two_pow_ne]
        show some (((top :: rest : List Nat).headD 0 &&&
            (1 <<< ((if len = 0 then 8 else len) - 1)) != 0),
            (⟨if (if len = 0 then 8 else len) - 1 = 0 then (top :: rest : List Nat).tail
              else top :: rest, (if len = 0 then 8 else len) - 1⟩ : BitStack)) = _
        have hz : ¬((if len = 0 then 8 else len) - 1 = 0) := by
          rw [if_neg h0]
          omega
        rw [if_neg hz, if_neg h0, List.headD_cons]
      · show byte_bits top (if len = 0 then 8 else len) ++ rest.flatMap (fun b => byte_bits b 8) =
          Nat.testBit top (len - 1) ::
            (byte_bits top (if len - 1 = 0 then 8 else len - 1) ++
              rest.flatMap (fun b => byte_bits b 8))
        have hz : ¬(len - 1 = 0) := by omega
        rw [if_neg hz, if_neg h0, byte_bits_succ_of_pos top len (by omega)]
        rfl

/-- Popping strictly decreases the bit count. -/
theorem pop_length_lt (s : BitStack) (b : Bool) (s' : BitStack)
    (h : s.pop = some (b, s')) : s'.length < s.length := by
  rcases s with ⟨data, len⟩
  simp only [BitStack.pop] at h
  split at h
  · exact absurd h (by simp)
  · rename_i hne
    simp only [Option.some.injEq, Prod.mk.injEq] at h
    obtain ⟨-, h2⟩ := h
    subst h2
    rcases data with - | ⟨top, rest⟩
    · have hlen : ¬ len = 0 := by simpa using hne
      simp only [BitStack.length, List.tail_nil]
      split_ifs <;>
        first
        | omega
        | (simp only [List.length_nil, List.length_cons]; omega)
    · simp only [BitStack.length, List.tail_cons]
      split_ifs <;>
        first
        | omega
        | (simp only [List.length_nil, List.length_cons]; omega)

/-- Unfolding `pop_all` when `pop` yields nothing. -/
theorem pop_all_none (s : BitStack) (h : s.pop = none) : s.pop_all = [] := by
  rw [BitStack.pop_all]
  split
  · rfl
  · rename_i b s' heq
    rw [h] at heq
    exact absurd heq (by simp)

/-- Unfolding `pop_all` when `pop` yields a bit. -/
theorem pop_all_some (s : BitStack) (b : Bool) (s' : BitStack)
    (h : s.pop = some (b, s')) : s.pop_all = b :: s'.pop_all := by
  rw [BitStack.pop_all]
  split
  · rename_i heq
    rw [h] at heq
    exact absurd heq (by simp)
  · rename_i b2 s2 heq
    rw [h] at heq
    simp only [Option.some.injEq, Prod.mk.injEq] at heq
    rw [heq.1, heq.2]

/-- Popping a well-formed stack until exhaustion yields its abstraction. -/
theorem pop_all_eq_bits (s : BitStack) (hw : s.wf) : s.pop_all = s.bits := by
  have key : ∀ n (s : BitStack), s.length ≤ n → s.wf → s.pop_all = s.bits := by
    intro n
    induction n with
    | zero =>
      intro s hl hw
      rcases s with ⟨data, len⟩
      rcases data with - | ⟨top, rest⟩
      · rw [pop_all_none _ (pop_empty _ hw rfl)]
        simp [BitStack.bits]
      · exfalso
        simp only [BitStack.length] at hl
        obtain ⟨h8, -⟩ := hw
        split_ifs at hl <;> simp only [List.length_cons] at hl <;> omega
    | succ n ih =>
      intro s hl hw
      rcases hd : s.data with - | ⟨top, rest⟩
      · rw [pop_all_none _ (pop_empty _ hw hd)]
        rcases s with ⟨data, len⟩
        simp only at hd
        simp [BitStack.bits, hd]
      · obtain ⟨b, s', hp, hb, hw'⟩ := pop_view s hw (by rw [hd]; simp)
        rw [pop_all_some s b s' hp, hb]
        have := pop_length_lt s b s' hp
        rw [ih s' (by omega) hw']
  exact key s.length s le_rfl hw

/-! ## C9: BitStack is LIFO -/

/-- C9: pushing any finite sequence of booleans onto an empty `BitStack` and
popping until exhaustion yields the reversed sequence, and `pop` on an empty
`BitStack` returns `none`. -/
theorem bit_stack_lifo :
    (∀ l : List Bool, (BitStack.empty.push_list l).pop_all = l.reverse) ∧
    BitStack.empty.pop = none := by
  constructor
  · intro l
    have hc : BitStack.empty.clean := by
      refine ⟨⟨by decide, fun _ => rfl⟩, ?_⟩
      intro top rest h
      exact absurd h (by simp [BitStack.empty])
    obtain ⟨hcl, hb⟩ := push_list_bits l BitStack.empty hc
    rw [pop_all_eq_bits _ hcl.1, hb]
    simp [BitStack.bits, BitStack.empty]
  · rfl

/-! ## Driver check lemmas -/

/-- `check_deleted` passes exactly when every deleted handle reads as all
zeros. -/
theorem check_deleted_ok_iff (store : Store) (deleted : List StoreHandle) :
    check_deleted store deleted = .ok () ↔
      ∀ h ∈ deleted, ∀ b ∈ store.inspect_value h, b = 0 := by
  induction deleted with
  | nil => simp [check_deleted]
  | cons handle rest ih =>
    rw [check_deleted]
    by_cases hall : (store.inspect_value handle).all (fun x => x == 0) = true
    · rw [if_pos hall, ih]
      have hall' : ∀ b ∈ store.inspect_value handle, b = 0 := by simpa using hall
      constructor
      · intro hr
        rw [List.forall_mem_cons]
        exact ⟨hall', hr⟩
      · intro hr h hm
        exact hr h (List.mem_cons_of_mem _ hm)
    · rw [if_neg hall]
      constructor
      · intro h
        exact absurd h (by simp)
      · intro hr
        exfalso
        apply hall
        rw [List.all_eq_true]
        intro b hb
        rw [beq_iff_eq]
        exact hr handle (List.mem_cons_self _ _) b hb

/-- When some deleted handle holds a nonzero byte, `check_deleted` reports
`NotWiped` for such a handle, with its key and value. -/
theorem check_deleted_err (store : Store) :
    ∀ deleted : List StoreHandle,
      (∃ h ∈ deleted, ∃ b ∈ store.inspect_value h, b ≠ 0) →
      ∃ h ∈ deleted, (∃ b ∈ store.inspect_value h, b ≠ 0) ∧
        check_deleted store deleted = .error (.notWiped h.key (store.inspect_value h)) := by
  intro deleted
  induction deleted with
  | nil =>
    rintro ⟨h, hm, -⟩
    simp at hm
  | cons handle rest ih =>
    intro hex
    by_cases hall : (store.inspect_value handle).all (fun x => x == 0) = true
    · have hh : ∀ b ∈ store.inspect_value handle, b = 0 := by simpa using hall
      obtain ⟨h, hm, hb⟩ := hex
      have hm' : h ∈ rest := by
        rcases List.mem_cons.mp hm with rfl | hm'
        · obtain ⟨b, hbm, hb0⟩ := hb
          exact absurd (hh b hbm) hb0
        · exact hm'
      obtain ⟨h', hm2, hb2, herr⟩ := ih ⟨h, hm', hb⟩
      refine ⟨h', List.mem_cons_of_mem _ hm2, hb2, ?_⟩
      rw [check_deleted, if_pos hall, herr]
    · refine ⟨handle, List.mem_cons_self _ _, ?_, ?_⟩
      · rw [List.all_eq_true] at hall
        push_neg at hall
        obtain ⟨b, hbm, hb⟩ := hall
        exact ⟨b, hbm, by simpa using hb⟩
      · rw [check_deleted, if_neg hall]

/-! ## C2: the driver's apply check -/

/-- C2: `StoreDriverOn::apply` returns `Ok` exactly when the store's and the
model's result codes agree and every deleted handle reads as all zeros
through `inspect_value`; differing result codes yield `DifferentResult`, and
a nonzero byte in a deleted value yields `NotWiped` with that key and
value. -/
theorem apply_spec (store : Store) (deleted : List StoreHandle) (rs rm : StoreResult) :
    (StoreDriverOn.apply store deleted rs rm = .ok () ↔
      rs = rm ∧ ∀ h ∈ deleted, ∀ b ∈ store.inspect_value h, b = 0) ∧
    (rs ≠ rm →
      StoreDriverOn.apply store deleted rs rm = .error (.differentResult rs rm)) ∧
    (rs = rm → (∃ h ∈ deleted, ∃ b ∈ store.inspect_value h, b ≠ 0) →
      ∃ h ∈ deleted, (∃ b ∈ store.inspect_value h, b ≠ 0) ∧
        StoreDriverOn.apply store deleted rs rm =
          .error (.notWiped h.key (store.inspect_value h))) := by
  by_cases hne : rs = rm
  · refine ⟨?_, fun hc => absurd hne hc, fun _ hex => ?_⟩
    · rw [StoreDriverOn.apply, if_neg (by simp [hne]), check_deleted_ok_iff]
      constructor
      · intro hp
        exact ⟨hne, hp⟩
      · intro hp
        exact hp.2
    · obtain ⟨h, hm, hb, herr⟩ := check_deleted_err store deleted hex
      exact ⟨h, hm, hb, by rw [StoreDriverOn.apply, if_neg (by simp [hne]), herr]⟩
  · refine ⟨?_, fun _ => by rw [StoreDriverOn.apply, if_pos hne],
      fun heq => absurd heq hne⟩
    rw [StoreDriverOn.apply, if_pos hne]
    constructor
    · intro h
      exact absurd h (by simp)
    · rintro ⟨heq, -⟩
      exact absurd heq hne

/-- Witness for C2: equal results and a wiped handle pass the check. -/
theorem apply_spec_witness :
    StoreDriverOn.apply store_fresh [⟨3⟩] .ok .ok = .ok () ↔
      (StoreResult.ok = StoreResult.ok ∧
        ∀ h ∈ [(⟨3⟩ : StoreHandle)], ∀ b ∈ store_fresh.inspect_value h, b = 0) :=
  (apply_spec store_fresh [⟨3⟩] .ok .ok).1

/-! ## C1: interrupted power-on checks rollback and complete -/

/-- C1: after an interrupted operation, powering back on (when the store
construction itself succeeds, yielding `store`) succeeds exactly when the
recovered store passes the invariant checks against the rollback model or,
when a complete candidate was recorded, against the complete model (with its
wiped handles); when a complete candidate exists and both checks fail, the
result is `Interrupted` carrying the rollback failure and the complete
failure. -/
theorem partial_power_on_spec (off : StoreDriverOff) (store : Store)
    (corrupt : Storage → Storage) :
    ((∃ d, off.partial_power_on (.ok store) corrupt = .ok (.on d)) ↔
      (recover_check store off.model [] = .ok () ∨
        ∃ c, off.complete = some c ∧ recover_check store c.model c.deleted = .ok ())) ∧
    (∀ c er ec, off.complete = some c →
      recover_check store off.model [] = .error er →
      recover_check store c.model c.deleted = .error ec →
      off.partial_power_on (.ok store) corrupt =
        .error (store.storage, .interrupted er ec)) := by
  rcases off with ⟨storage, model, complete⟩
  rcases complete with - | c
  · cases h1 : recover_check store model [] with
    | error e =>
      refine ⟨⟨?_, ?_⟩, ?_⟩
      · rintro ⟨d, hd⟩
        simp only [StoreDriverOff.partial_power_on, StoreDriverOn.new, h1] at hd
        exact absurd hd (by simp)
      · rintro (h | ⟨c, hc, -⟩)
        · exact absurd h (by simp)
        · exact absurd hc (by simp)
      · intro c er ec hc
        exact absurd hc (by simp)
    | ok u =>
      cases u
      refine ⟨⟨?_, ?_⟩, ?_⟩
      · intro _
        exact Or.inl rfl
      · intro _
        refine ⟨⟨store, model⟩, ?_⟩
        simp only [StoreDriverOff.partial_power_on, StoreDriverOn.new, h1]
      · intro c er ec hc
        exact absurd hc (by simp)
  · cases h1 : recover_check store c.model c.deleted with
    | ok u =>
      cases u
      refine ⟨⟨?_, ?_⟩, ?_⟩
      · intro _
        exact Or.inr ⟨c, rfl, h1⟩
      · intro _
        refine ⟨⟨store, c.model⟩, ?_⟩
        simp only [StoreDriverOff.partial_power_on, StoreDriverOn.new, h1]
      · intro c2 er ec hc her hec
        replace hc : some c = some c2 := hc
        obtain rfl : c2 = c := (Option.some.inj hc).symm
        rw [h1] at hec
        exact absurd hec (by simp)
    | error e =>
      cases h2 : recover_check store model [] with
      | ok u =>
        cases u
        refine ⟨⟨?_, ?_⟩, ?_⟩
        · intro _
          exact Or.inl rfl
        · intro _
          refine ⟨⟨store, model⟩, ?_⟩
          simp only [StoreDriverOff.partial_power_on, StoreDriverOn.new, h1, h2]
        · intro c2 er ec hc her hec
          exact absurd her (by simp)
      | error e2 =>
        refine ⟨⟨?_, ?_⟩, ?_⟩
        · rintro ⟨d, hd⟩
          simp only [StoreDriverOff.partial_power_on, StoreDriverOn.new, h1, h2] at hd
          exact absurd hd (by simp)
        · rintro (h | ⟨c2, hc, h3⟩)
          · exact absurd h (by simp)
          · replace hc : some c = some c2 := hc
            obtain rfl : c2 = c := (Option.some.inj hc).symm
            rw [h1] at h3
            exact absurd h3 (by simp)
        · intro c2 er ec hc her hec
          replace hc : some c = some c2 := hc
          obtain rfl : c2 = c := (Option.some.inj hc).symm
          rw [h1] at hec
          have her2 : e2 = er := by simpa using her
          have hec2 : e = ec := by simpa using hec
          subst her2
          subst hec2
          simp only [StoreDriverOff.partial_power_on, StoreDriverOn.new, h1, h2]

/-- Witness for C1: with a complete candidate recorded and both checks
failing (the store iterates nothing while each model holds a key), power-on
reports both failures as `Interrupted`. -/
theorem partial_power_on_spec_witness :
    StoreDriverOff.partial_power_on off_bad (.ok store_bad) id =
      .error (store_bad.storage, .interrupted (.onlyInModel 5) (.onlyInModel 7)) :=
  (partial_power_on_spec off_bad store_bad id).2 ⟨⟨[(7, [])], 0⟩, []⟩
    (.onlyInModel 5) (.onlyInModel 7) rfl rfl rfl

/-! ## C3: the storage check pins the metadata word write counts -/

/-- Each page of a passing `check_storage_pages` run passes its page check. -/
theorem check_storage_pages_ok (store : Store) :
    ∀ l, check_storage_pages store l = .ok () →
      ∀ p ∈ l, check_storage_page store p = .ok () := by
  intro l
  induction l with
  | nil =>
    intro _ p hp
    simp at hp
  | cons q rest ih =>
    intro h p hp
    rw [check_storage_pages] at h
    cases hq : check_storage_page store q with
    | error e =>
      rw [hq] at h
      exact absurd h (by simp)
    | ok u =>
      cases u
      rw [hq] at h
      rcases List.mem_cons.mp hp with rfl | hp'
      · exact hq
      · exact ih h p hp'

/-- A passing page check forces the erase count and the two metadata word
write counts of the page to their expected values. -/
theorem check_storage_page_ok (store : Store) (page : Nat)
    (h : check_storage_page store page = .ok ()) :
    store.storage.get_page_erases page =
      Position.cycle store.format store.head +
        (if page < Position.page store.format store.head then 1 else 0) ∧
    store.storage.get_word_writes
        (page * (store.format.page_size / store.format.word_size)) =
      (if page = 0 ∧ store.tail = Position.new store.format 0 0 0 then 1
       else if Position.new store.format (store.storage.get_page_erases page) page 0 <
           store.tail then 1 else 0) ∧
    store.storage.get_word_writes
        (page * (store.format.page_size / store.format.word_size) + 1) = 0 := by
  simp only [check_storage_page] at h
  split_ifs at h ⊢ <;>
    first
    | exact absurd h (by simp)
    | (push_neg at *; omega)

/-- C3 amended: whenever the driver's storage check accepts a state, the
write count of each page's init word equals its expected value exactly (1
for a page before the tail or for page 0 on a fresh store, 0 otherwise) and
the compact-info word count is 0; in particular any state in which one of
these counts exceeds its expected value is rejected, but so is a state in
which the init word count falls short of it. -/
theorem check_storage_metadata (store : Store) (hok : check_storage store = .ok ()) :
    ∀ page, page < store.format.num_pages →
      store.storage.get_page_erases page =
        Position.cycle store.format store.head +
          (if page < Position.page store.format store.head then 1 else 0) ∧
      store.storage.get_word_writes
          (page * (store.format.page_size / store.format.word_size)) =
        (if page = 0 ∧ store.tail = Position.new store.format 0 0 0 then 1
         else if Position.new store.format (store.storage.get_page_erases page) page 0 <
             store.tail then 1 else 0) ∧
      store.storage.get_word_writes
          (page * (store.format.page_size / store.format.word_size) + 1) = 0 := by
  intro page hp
  exact check_storage_page_ok store page
    (check_storage_pages_ok store _ hok page (List.mem_range.mpr hp))

/-- Witness for C3 on the consistent fresh store. -/
theorem check_storage_metadata_witness :
    store_fresh.storage.get_page_erases 0 =
      Position.cycle store_fresh.format store_fresh.head +
        (if 0 < Position.page store_fresh.format store_fresh.head then 1 else 0) ∧
    store_fresh.storage.get_word_writes
        (0 * (store_fresh.format.page_size / store_fresh.format.word_size)) =
      (if (0 : Nat) = 0 ∧ store_fresh.tail = Position.new store_fresh.format 0 0 0 then 1
       else if Position.new store_fresh.format (store_fresh.storage.get_page_erases 0) 0 0 <
           store_fresh.tail then 1 else 0) ∧
    store_fresh.storage.get_word_writes
        (0 * (store_fresh.format.page_size / store_fresh.format.word_size) + 1) = 0 :=
  check_storage_metadata store_fresh rfl 0 (by norm_num [store_fresh])

/-- C3 counterexample: a state in which every metadata word write count is at
most its expected value (every count is 0, the expected init count of the
fresh page 0 is 1) yet the storage check rejects it: "at most the expected
value" is not sufficient for acceptance, the init word count must be exact. -/
theorem check_storage_cex :
    store_low.storage.get_word_writes
        (0 * (store_low.format.page_size / store_low.format.word_size)) ≤
      (if (0 : Nat) = 0 ∧ store_low.tail = Position.new store_low.format 0 0 0 then 1
       else if Position.new store_low.format (store_low.storage.get_page_erases 0) 0 0 <
           store_low.tail then 1 else 0) ∧
    store_low.storage.get_word_writes
        (0 * (store_low.format.page_size / store_low.format.word_size) + 1) = 0 ∧
    store_low.storage.get_word_writes
        (1 * (store_low.format.page_size / store_low.format.word_size)) = 0 ∧
    store_low.storage.get_word_writes
        (1 * (store_low.format.page_size / store_low.format.word_size) + 1) = 0 ∧
    store_low.storage.get_word_writes
        (2 * (store_low.format.page_size / store_low.format.word_size)) = 0 ∧
    store_low.storage.get_word_writes
        (2 * (store_low.format.page_size / store_low.format.word_size) + 1) = 0 ∧
    check_storage store_low = .error (.differentWrite 0 0 1 0) :=
  ⟨by decide, by decide, by decide, by decide, by decide, by decide, rfl⟩

/-! ## C4: the delay map lists the modified bits of every atomic operation -/

/-- One interrupted iteration of the delay-map loop. -/
theorem delay_map_go_step (r : InterruptedRun) (delay fuel : Nat)
    (hlt : delay < r.bits.length) (hpos : 0 < r.bits.getD delay 0) :
    delay_map_go r delay (fuel + 1) =
      (match delay_map_go r (delay + 1) fuel with
       | .ok map => .ok (r.bits.getD delay 0 :: map)
       | e => e) := by
  rw [delay_map_go,
    show run_armed r delay = some .storageError from by rw [run_armed, if_pos hlt],
    show count_modified_bits r delay = some (r.bits.getD delay 0) from by
      simp only [count_modified_bits]
      rw [if_pos hpos]]

/-- The final iteration of the delay-map loop, once the run is no longer
interrupted. -/
theorem delay_map_go_done (r : InterruptedRun) (delay fuel : Nat)
    (hge : ¬ delay < r.bits.length) :
    delay_map_go r delay (fuel + 1) =
      if r.final = some .invalidStorage then .invalid delay else .ok [0] := by
  rw [delay_map_go, show run_armed r delay = r.final from by rw [run_armed, if_neg hge]]
  rcases hf : r.final with - | e
  · rfl
  · cases e
    · rfl
    · rfl
    · rfl
    · exact absurd hf r.final_ok
    · rfl

/-- When the delay-map loop returns a vector, it is the bit counts of the
remaining atomic operations followed by 0, and they are all positive. -/
theorem delay_map_go_ok (r : InterruptedRun) :
    ∀ fuel delay v, r.bits.length < delay + fuel →
      delay_map_go r delay fuel = .ok v →
      v = r.bits.drop delay ++ [0] ∧ ∀ x ∈ r.bits.drop delay, 0 < x := by
  intro fuel
  induction fuel with
  | zero =>
    intro delay v hb h
    simp [delay_map_go] at h
  | succ fuel ih =>
    intro delay v hb h
    by_cases hlt : delay < r.bits.length
    · by_cases hpos : 0 < r.bits.getD delay 0
      · rw [delay_map_go_step r delay fuel hlt hpos] at h
        cases hrec : delay_map_go r (delay + 1) fuel with
        | ok map =>
          rw [hrec] at h
          obtain ⟨hmap, hposr⟩ := ih (delay + 1) map (by omega) hrec
          simp only [DelayMapResult.ok.injEq] at h
          have hdrop : r.bits.drop delay = r.bits[delay] :: r.bits.drop (delay + 1) :=
            List.drop_eq_getElem_cons hlt
          have hget : r.bits.getD delay 0 = r.bits[delay] :=
            List.getD_eq_getElem r.bits 0 hlt
          constructor
          · rw [← h, hmap, hdrop, hget]
            rfl
          · rw [hdrop]
            intro x hx
            rcases List.mem_cons.mp hx with rfl | hx'
            · rw [← hget]
              exact hpos
            · exact hposr x hx'
        | invalid d2 =>
          rw [hrec] at h
          exact absurd h (by simp)
        | panicked =>
          rw [hrec] at h
          exact absurd h (by simp)
      · have hpan : delay_map_go r delay (fuel + 1) = .panicked := by
          rw [delay_map_go,
            show run_armed r delay = some .storageError from by rw [run_armed, if_pos hlt],
            show count_modified_bits r delay = none from by
              simp only [count_modified_bits]
              rw [if_neg hpos]]
        rw [hpan] at h
        exact absurd h (by simp)
    · rw [delay_map_go_done r delay fuel hlt] at h
      by_cases hf : r.final = some StoreError.invalidStorage
      · rw [if_pos hf] at h
        exact absurd h (by simp)
      · rw [if_neg hf] at h
        simp only [DelayMapResult.ok.injEq] at h
        have hdrop : r.bits.drop delay = [] := List.drop_eq_nil_of_le (by omega)
        rw [hdrop]
        exact ⟨h.symm, by simp⟩

/-- C4: whenever `delay_map` returns `Ok(v)`, the vector `v` has one entry
per atomic flash operation of the run plus a final entry 0; for every index
`N` before the last, `v[N]` is the number of bits the `N + 1`-th atomic
operation would modify, and every such entry is strictly positive. -/
theorem delay_map_spec (r : InterruptedRun) (v : List Nat)
    (h : delay_map r = .ok v) :
    v.length = r.bits.length + 1 ∧
    (∀ i, i < r.bits.length → v.getD i 0 = r.bits.getD i 0 ∧ 0 < v.getD i 0) ∧
    v.getD r.bits.length 0 = 0 := by
  obtain ⟨hv, hpos⟩ := delay_map_go_ok r (r.bits.length + 1) 0 v (by omega) h
  rw [List.drop_zero] at hv hpos
  subst hv
  refine ⟨by simp, ?_, ?_⟩
  · intro i hi
    have hg : (r.bits ++ [0]).getD i 0 = r.bits.getD i 0 := by
      rw [List.getD_eq_getElem _ 0 (by simp; omega), List.getD_eq_getElem _ 0 hi,
        List.getElem_append_left hi]
    refine ⟨hg, ?_⟩
    rw [hg, List.getD_eq_getElem _ 0 hi]
    exact hpos _ (List.getElem_mem _)
  · rw [List.getD_eq_getElem _ 0 (by simp)]
    simp

/-- Witness for C4 on a two-operation run modifying 3 and 2 bits. -/
theorem delay_map_spec_witness :
    delay_map run_ex = .ok [3, 2, 0] ∧
    ([3, 2, 0] : List Nat).length = run_ex.bits.length + 1 ∧
    ([3, 2, 0] : List Nat).getD 0 0 = run_ex.bits.getD 0 0 ∧
    0 < ([3, 2, 0] : List Nat).getD 0 0 ∧
    ([3, 2, 0] : List Nat).getD run_ex.bits.length 0 = 0 := by
  have h : delay_map run_ex = .ok [3, 2, 0] := rfl
  obtain ⟨h1, h2, h3⟩ := delay_map_spec run_ex [3, 2, 0] h
  obtain ⟨h4, h5⟩ := h2 0 (by norm_num [run_ex])
  exact ⟨h, h1, h4, h5, h3⟩

end OpenSK
